import Mathlib

/-!
Verification of the row-based terminal text editor (kilo-style, C source).

The editor's data model and operations are shallowly embedded:
rows are lists of characters (`chars`), tabs are expanded into a derived
`render` form, and a per-render-byte `highlight` classification is kept in
sync by an incremental highlighter with cross-row open-comment propagation.
Machine `int` values that are provably nonnegative in the editor
(cursor coordinates, offsets, sizes) are modelled as `Nat`; the search
bookkeeping value `last_match`, which genuinely takes the value `-1`,
is modelled as `Int`.
-/

/-! ## Character classes (ctype.h predicates as used by the editor) -/

/-- The `isspace` for the ASCII characters the editor can encounter. -/
def isspace_ (c : Char) : Bool :=
  c = ' ' || c = '\t' || c = '\n' || c = '\x0b' || c = '\x0c' || c = '\r'

/-- The `isdigit`. -/
def isdigit_ (c : Char) : Bool :=
  '0' ≤ c && c ≤ '9'

/-- The `iscntrl` for bytes below 128 (the only range the prompt tests). -/
def iscntrl_ (c : Nat) : Bool :=
  c < 32 || c = 127

/-- The `is_separator` from the source: whitespace, NUL, or one of the listed
punctuation characters. -/
def is_separator (c : Char) : Bool :=
  isspace_ c || c = '\x00' || (",.()+-/*=~%<>[];".toList).contains c

/-! ## Tab expansion and cursor/render coordinate maps (TAB_STOP = 8) -/

/-- One step of the render-column advance: a tab moves to the next multiple
of 8 (`rx += (TAB_STOP - 1) - (rx % TAB_STOP); ++rx`), anything else
advances by one. -/
def tabStep (rx : Nat) (c : Char) : Nat :=
  if c = '\t' then rx + (8 - rx % 8) else rx + 1

/-- Loop of `editorRowCxToRx`: fold `tabStep` over the first `cx` characters. -/
def cxToRxAux : List Char → Nat → Nat → Nat
  | _, 0, rx => rx
  | [], _ + 1, rx => rx
  | c :: cs, j + 1, rx => cxToRxAux cs j (tabStep rx c)

/-- The `editorRowCxToRx`: convert a char index into the row to a render column. -/
def editorRowCxToRx (chars : List Char) (cx : Nat) : Nat :=
  cxToRxAux chars cx 0

/-- Loop of `editorRowRxToCx`: walk the chars accumulating the render column,
returning the first char index whose render span passes the target `rx`. -/
def rxToCxAux : List Char → Nat → Nat → Nat → Nat
  | [], _, _, cx => cx
  | c :: cs, rx, rxcur, cx =>
    let rxcur' := tabStep rxcur c
    if rx < rxcur' then cx else rxToCxAux cs rx rxcur' (cx + 1)

/-- The `editorRowRxToCx`: convert a render column back to a char index. -/
def editorRowRxToCx (chars : List Char) (rx : Nat) : Nat :=
  rxToCxAux chars rx 0 0

/-- The `editorUpdateRow`'s render derivation: copy chars, expanding each tab to
at least one space and then up to the next multiple of 8. -/
def renderChars (chars : List Char) : List Char :=
  chars.foldl
    (fun acc c =>
      if c = '\t' then
        let acc1 := acc ++ [' ']
        acc1 ++ List.replicate ((8 - acc1.length % 8) % 8) ' '
      else acc ++ [c])
    []

/-! ## Row character operations (`editorRowInsertChar` / `editorRowDeleteChar`) -/

/-- The `editorRowInsertChar`'s effect on `chars`: an out-of-range position is
clamped to the row size, then the byte is inserted at that position. -/
def editorRowInsertChar (chars : List Char) (i : Nat) (c : Char) : List Char :=
  let j := if i > chars.length then chars.length else i
  chars.insertIdx j c

/-- The `editorRowDeleteChar`'s effect on `chars`: no-op when out of range,
otherwise remove the character at position `i`. -/
def editorRowDeleteChar (chars : List Char) (i : Nat) : List Char :=
  if i ≥ chars.length then chars else chars.eraseIdx i

/-! ## File I/O (`editorOpen` line stripping and `editorRowsToString`) -/

/-- The `editorOpen`'s per-line normalization: strip every trailing `\n` or `\r`. -/
def stripCRLF (line : List Char) : List Char :=
  (line.reverse.dropWhile (fun c => c == '\n' || c == '\r')).reverse

/-- The `editorOpen`'s document construction: one row per input line, each
stripped of trailing CR/LF. -/
def editorOpenRows (lines : List (List Char)) : List (List Char) :=
  lines.map stripCRLF

/-- The `editorRowsToString`: the serialized buffer (every row followed by one
`\n`) together with the separately computed byte length `Σ (size + 1)`. -/
def editorRowsToString (rows : List (List Char)) : List Char × Nat :=
  ((rows.map (fun r => r ++ ['\n'])).flatten,
   (rows.map (fun r => r.length + 1)).sum)

/-! ## Lemmas about the coordinate maps -/

theorem tabStep_lt (rx : Nat) (c : Char) : rx < tabStep rx c := by
  unfold tabStep
  split
  · have h : rx % 8 < 8 := Nat.mod_lt _ (by omega)
    omega
  · omega

theorem cxToRxAux_le (cs : List Char) (j : Nat) :
    ∀ rx, rx ≤ cxToRxAux cs j rx := by
  induction cs generalizing j with
  | nil => intro rx; cases j <;> simp [cxToRxAux]
  | cons c cs ih =>
    intro rx
    cases j with
    | zero => simp [cxToRxAux]
    | succ j =>
      have h1 : rx < tabStep rx c := tabStep_lt rx c
      have h2 := ih j (tabStep rx c)
      simp only [cxToRxAux]
      omega

theorem rxToCx_cxToRx_aux (cs : List Char) :
    ∀ cx c0 r0, cx ≤ cs.length →
      rxToCxAux cs (cxToRxAux cs cx r0) r0 c0 = c0 + cx := by
  induction cs with
  | nil =>
    intro cx c0 r0 h
    simp at h
    subst h
    simp [cxToRxAux, rxToCxAux]
  | cons c cs ih =>
    intro cx c0 r0 h
    cases cx with
    | zero =>
      simp only [cxToRxAux, rxToCxAux]
      have := tabStep_lt r0 c
      simp [this]
    | succ j =>
      simp only [cxToRxAux, rxToCxAux]
      have hle : tabStep r0 c ≤ cxToRxAux cs j (tabStep r0 c) := cxToRxAux_le cs j _
      have hnot : ¬ cxToRxAux cs j (tabStep r0 c) < tabStep r0 c := by omega
      simp only [hnot, if_false]
      have hj : j ≤ cs.length := by simpa using h
      rw [ih j (c0 + 1) (tabStep r0 c) hj]
      omega

/-- C4: for every row and every `cx` in `[0, row.size]`, converting to a
render column with `editorRowCxToRx` and back with `editorRowRxToCx`
returns exactly the same `cx` (in particular the render position covered is
the same column). -/
theorem rxToCx_cxToRx (chars : List Char) (cx : Nat) (h : cx ≤ chars.length) :
    editorRowRxToCx chars (editorRowCxToRx chars cx) = cx := by
  unfold editorRowRxToCx editorRowCxToRx
  simpa using rxToCx_cxToRx_aux chars cx 0 0 h

theorem rxToCx_cxToRx_witness :
    "a\tbc".toList.length = 4 ∧
      editorRowRxToCx "a\tbc".toList (editorRowCxToRx "a\tbc".toList 3) = 3 :=
  ⟨by decide, rxToCx_cxToRx "a\tbc".toList 3 (by decide)⟩

/-! ## Load/serialize round trip -/

/-- C2: loading any sequence of input lines (stripping trailing CR/LF from
each) and serializing yields each row's chars followed by exactly one `\n`,
in row order, with the reported length equal to the buffer's length; in
particular `["ab\r\n", "cd\n"]` serializes to `"ab\ncd\n"` of length 6. -/
theorem serialize_after_load (lines : List (List Char)) :
    (editorRowsToString (editorOpenRows lines)).1
        = (lines.map (fun l => stripCRLF l ++ ['\n'])).flatten
      ∧ (editorRowsToString (editorOpenRows lines)).2
        = (editorRowsToString (editorOpenRows lines)).1.length
      ∧ editorRowsToString (editorOpenRows ["ab\r\n".toList, "cd\n".toList])
        = ("ab\ncd\n".toList, 6) := by
  refine ⟨?_, ?_, by decide⟩
  · simp [editorRowsToString, editorOpenRows, List.map_map, Function.comp_def]
  · simp [editorRowsToString, editorOpenRows, List.length_flatten,
      List.map_map, Function.comp_def]

/-! ## Editor state and buffer operations

The buffer-level state carries the fields of `struct editorConfig` that the
buffer, cursor and scroll operations read or write.  Each row is represented
by its `chars` content; `render`, `highlight` and `hl_open_comment` are
derived data regenerated by `editorUpdateRow`/`editorUpdateSyntax` and are
never read by these operations (they are modelled separately below for the
highlighter and search).  `numrows` is `rows.length`; the per-row `idx`
field is the row's list position. -/

structure EState where
  rows : List (List Char)
  cx : Nat
  cy : Nat
  rx : Nat
  rowoffset : Nat
  coloffset : Nat
  screenrows : Nat
  screencols : Nat
  dirty : Bool
deriving Repr, DecidableEq

/-- The `editorInsertRow`: no-op when `i` is out of `[0, numrows]`, otherwise
insert the row at position `i` (subsequent rows' `idx` renumbering is the
positional shift) and mark the document dirty. -/
def editorInsertRow (e : EState) (i : Nat) (s : List Char) : EState :=
  if i > e.rows.length then e
  else { e with rows := e.rows.insertIdx i s, dirty := true }

/-- The `editorDeleteRow`: no-op when `i` is out of range, otherwise remove row
`i` and mark dirty. -/
def editorDeleteRow (e : EState) (i : Nat) : EState :=
  if i ≥ e.rows.length then e
  else { e with rows := e.rows.eraseIdx i, dirty := true }

/-- The `editorInsertChar`: on the virtual row past the end, first append an
empty row; then insert the byte at the cursor column (via
`editorRowInsertChar`, which marks dirty) and advance the cursor. -/
def editorInsertChar (e : EState) (c : Char) : EState :=
  let e1 := if e.cy = e.rows.length then editorInsertRow e e.rows.length [] else e
  let row := e1.rows.getD e1.cy []
  let e2 := { e1 with rows := e1.rows.set e1.cy (editorRowInsertChar row e1.cx c),
                      dirty := true }
  { e2 with cx := e2.cx + 1 }

/-- The `editorDeleteChar`: no-op on the virtual row or at the document start;
with `cx > 0` delete the byte before the cursor (`editorRowDeleteChar` marks
dirty only when in range) and move left; with `cx = 0` merge the current row
onto the end of the previous row (`editorRowAppendString` + `editorDeleteRow`)
and place the cursor at the old boundary. -/
def editorDeleteChar (e : EState) : EState :=
  if e.cy = e.rows.length ∨ (e.cx = 0 ∧ e.cy = 0) then e
  else
    let row := e.rows.getD e.cy []
    if 0 < e.cx then
      let e1 :=
        if e.cx - 1 ≥ row.length then e
        else { e with rows := e.rows.set e.cy (row.eraseIdx (e.cx - 1)),
                      dirty := true }
      { e1 with cx := e1.cx - 1 }
    else
      let prev := e.rows.getD (e.cy - 1) []
      let e1 := { e with cx := prev.length }
      let e2 := { e1 with rows := e1.rows.set (e1.cy - 1) (prev ++ row),
                          dirty := true }
      let e3 := editorDeleteRow e2 e2.cy
      { e3 with cy := e3.cy - 1 }

/-- The `editorInsertNewline`: at column 0 insert an empty row before the current
one; otherwise insert a new row after it holding `chars[cx:]` and truncate
the current row to `chars[:cx]`; in both cases move to column 0 of the next
row. -/
def editorInsertNewline (e : EState) : EState :=
  let e1 :=
    if e.cx = 0 then editorInsertRow e e.cy []
    else
      let row := e.rows.getD e.cy []
      let ea := editorInsertRow e (e.cy + 1) (row.drop e.cx)
      let row2 := ea.rows.getD ea.cy []
      { ea with rows := ea.rows.set ea.cy (row2.take ea.cx) }
  { e1 with cy := e1.cy + 1, cx := 0 }

/-- The `editorScroll`: recompute `rx` from the cursor (0 on the virtual row),
then clamp `rowoffset` and `coloffset` so the cursor is inside the window. -/
def editorScroll (e : EState) : EState :=
  let rx := if e.cy < e.rows.length
            then editorRowCxToRx (e.rows.getD e.cy []) e.cx else 0
  let ro1 := if e.cy < e.rowoffset then e.cy else e.rowoffset
  let ro2 := if e.cy ≥ ro1 + e.screenrows then e.cy - e.screenrows + 1 else ro1
  let co1 := if rx < e.coloffset then rx else e.coloffset
  let co2 := if rx ≥ co1 + e.screencols then rx - e.screencols + 1 else co1
  { e with rx := rx, rowoffset := ro2, coloffset := co2 }

/-! ## Helper lemmas about `getD`, `set`, `insertIdx` -/

theorem set_getD_self {α : Type} (l : List α) (n : Nat) (d : α)
    (h : n < l.length) : l.set n (l.getD n d) = l := by
  induction l generalizing n with
  | nil => simp at h
  | cons a l ih =>
    cases n with
    | zero => rfl
    | succ n =>
      simp only [List.getD_cons_succ, List.set_cons_succ]
      rw [ih n (by simpa using h)]

theorem set_eq_self_of_getD {α : Type} (l : List α) (n : Nat) (a d : α)
    (h : n < l.length) (ha : l.getD n d = a) : l.set n a = l := by
  rw [← ha]
  exact set_getD_self l n d h

theorem getD_set_self {α : Type} (l : List α) (n : Nat) (a d : α)
    (h : n < l.length) : (l.set n a).getD n d = a := by
  rw [List.getD_eq_getElem?_getD, List.getElem?_set_self h]
  rfl

theorem getD_set_ne {α : Type} (l : List α) (n m : Nat) (a d : α)
    (h : n ≠ m) : (l.set n a).getD m d = l.getD m d := by
  rw [List.getD_eq_getElem?_getD, List.getElem?_set_ne h,
    ← List.getD_eq_getElem?_getD]

theorem getD_insertIdx_of_lt {α : Type} (l : List α) (x : α) (n k : Nat)
    (hn : k < n) (hk : k < l.length) (d : α) :
    (l.insertIdx n x).getD k d = l.getD k d := by
  have hk' : k < (l.insertIdx n x).length :=
    lt_of_lt_of_le hk (List.length_le_length_insertIdx l x n)
  rw [List.getD_eq_getElem?_getD, List.getD_eq_getElem?_getD,
    List.getElem?_eq_getElem hk', List.getElem?_eq_getElem hk,
    List.getElem_insertIdx_of_lt l x n k hn hk]

theorem getD_insertIdx_self {α : Type} (l : List α) (x : α) (n : Nat)
    (hn : n ≤ l.length) (d : α) :
    (l.insertIdx n x).getD n d = x := by
  have hn' : n < (l.insertIdx n x).length := by
    rw [List.length_insertIdx n l hn]; omega
  rw [List.getD_eq_getElem?_getD, List.getElem?_eq_getElem hn',
    List.getElem_insertIdx_self l x n hn]
  rfl

/-! ## Frame property of `editorDeleteChar` on the virtual row -/

/-- C10: with the cursor on the virtual row past the document end
(`cy = numrows`), `editorDeleteChar` is a complete no-op: rows, row count,
cursor position and dirty flag are all unchanged. -/
theorem deleteChar_virtual_row_noop (e : EState) (h : e.cy = e.rows.length) :
    editorDeleteChar e = e := by
  unfold editorDeleteChar
  simp [h]

theorem deleteChar_virtual_row_noop_witness :
    editorDeleteChar
        { rows := ["ab".toList], cx := 0, cy := 1, rx := 0, rowoffset := 0,
          coloffset := 0, screenrows := 24, screencols := 80, dirty := false }
      = { rows := ["ab".toList], cx := 0, cy := 1, rx := 0, rowoffset := 0,
          coloffset := 0, screenrows := 24, screencols := 80, dirty := false } :=
  deleteChar_virtual_row_noop _ (by decide)

/-! ## Scroll clamp invariant -/

/-- The 100-row document of the C5 example, with the cursor at row `cy` and
vertical offset `ro`. -/
def scrollExample (cy ro : Nat) : EState :=
  { rows := List.replicate 100 [], cx := 0, cy := cy, rx := 0, rowoffset := ro,
    coloffset := 0, screenrows := 20, screencols := 80, dirty := false }

/-- C5: after `editorScroll` (with a viewport of at least one row and one
column) the cursor is inside the visible window, for every cursor position
and every prior offset; concretely, with 100 rows and 20 screen rows,
a cursor at row 99 yields `rowoffset = 80` and a cursor back at row 0
yields `rowoffset = 0`. -/
theorem editorScroll_cursor_visible (e : EState)
    (hr : 1 ≤ e.screenrows) (hc : 1 ≤ e.screencols) :
    ((editorScroll e).rowoffset ≤ e.cy
        ∧ e.cy < (editorScroll e).rowoffset + e.screenrows
        ∧ (editorScroll e).coloffset ≤ (editorScroll e).rx
        ∧ (editorScroll e).rx < (editorScroll e).coloffset + e.screencols)
      ∧ (editorScroll (scrollExample 99 0)).rowoffset = 80
      ∧ (editorScroll (scrollExample 0 80)).rowoffset = 0 := by
  refine ⟨⟨?_, ?_, ?_, ?_⟩, by decide, by decide⟩ <;>
    · unfold editorScroll
      dsimp only
      split_ifs <;> omega

theorem editorScroll_cursor_visible_witness :
    (1 ≤ (scrollExample 99 0).screenrows ∧ 1 ≤ (scrollExample 99 0).screencols)
      ∧ (editorScroll (scrollExample 99 0)).rowoffset ≤ (scrollExample 99 0).cy :=
  ⟨⟨by decide, by decide⟩,
    (editorScroll_cursor_visible (scrollExample 99 0) (by decide) (by decide)).1.1⟩

/-! ## Edit invariants: insert/delete and split/merge -/

theorem rowInsert_then_delete (chars : List Char) (i : Nat) (c : Char)
    (h : i ≤ chars.length) :
    editorRowDeleteChar (editorRowInsertChar chars i c) i = chars := by
  unfold editorRowInsertChar editorRowDeleteChar
  have hj : ¬ i > chars.length := by omega
  simp only [hj, if_false]
  have hlen : (chars.insertIdx i c).length = chars.length + 1 :=
    List.length_insertIdx i chars h
  rw [hlen]
  simp only [show ¬ i ≥ chars.length + 1 by omega, if_false]
  exact List.eraseIdx_insertIdx i chars

theorem editorInsertChar_eq (e : EState) (c : Char)
    (hcy : e.cy < e.rows.length)
    (hcx : e.cx ≤ (e.rows.getD e.cy []).length) :
    editorInsertChar e c =
      { e with rows := e.rows.set e.cy ((e.rows.getD e.cy []).insertIdx e.cx c),
               cx := e.cx + 1, dirty := true } := by
  unfold editorInsertChar editorInsertRow editorRowInsertChar
  have hne : ¬ e.cy = e.rows.length := Nat.ne_of_lt hcy
  have hgt : ¬ e.cx > (e.rows.getD e.cy []).length := by omega
  simp only [hne, if_false, hgt]

theorem editorDeleteChar_eq_inrow (e : EState)
    (hcy : e.cy < e.rows.length) (hcx : 0 < e.cx)
    (hlt : e.cx - 1 < (e.rows.getD e.cy []).length) :
    editorDeleteChar e =
      { e with rows := e.rows.set e.cy ((e.rows.getD e.cy []).eraseIdx (e.cx - 1)),
               cx := e.cx - 1, dirty := true } := by
  unfold editorDeleteChar
  have h1 : ¬ (e.cy = e.rows.length ∨ (e.cx = 0 ∧ e.cy = 0)) := by omega
  have h2 : ¬ (e.cx - 1 ≥ (e.rows.getD e.cy []).length) := by omega
  simp only [h1, if_false, hcx, if_true, h2]

theorem editorDeleteChar_eq_merge (e : EState)
    (hcy0 : 0 < e.cy) (hcyl : e.cy < e.rows.length) (hcx : e.cx = 0) :
    editorDeleteChar e =
      { e with
        cx := (e.rows.getD (e.cy - 1) []).length,
        rows := (e.rows.set (e.cy - 1)
                  ((e.rows.getD (e.cy - 1) []) ++ (e.rows.getD e.cy []))).eraseIdx e.cy,
        cy := e.cy - 1, dirty := true } := by
  unfold editorDeleteChar editorDeleteRow
  have h1 : ¬ (e.cy = e.rows.length ∨ (e.cx = 0 ∧ e.cy = 0)) := by omega
  have h2 : ¬ 0 < e.cx := by omega
  have h3 : ¬ (e.cy ≥ (e.rows.set (e.cy - 1)
      ((e.rows.getD (e.cy - 1) []) ++ (e.rows.getD e.cy []))).length) := by
    rw [List.length_set]; omega
  simp only [h1, if_false, h2, h3]

theorem editorInsertNewline_eq (e : EState)
    (hcx : 0 < e.cx) (hcy : e.cy < e.rows.length) :
    editorInsertNewline e =
      { e with
        rows := (e.rows.insertIdx (e.cy + 1) ((e.rows.getD e.cy []).drop e.cx)).set
                  e.cy ((e.rows.getD e.cy []).take e.cx),
        cy := e.cy + 1, cx := 0, dirty := true } := by
  unfold editorInsertNewline editorInsertRow
  have h1 : ¬ e.cx = 0 := by omega
  have h2 : ¬ (e.cy + 1 > e.rows.length) := by omega
  simp only [h1, if_false, h2]
  have h3 : (e.rows.insertIdx (e.cy + 1) ((e.rows.getD e.cy []).drop e.cx)).getD
      e.cy [] = e.rows.getD e.cy [] :=
    getD_insertIdx_of_lt e.rows _ (e.cy + 1) e.cy (by omega) hcy []
  simp only [h3]

/-- C3: inserting a character at a valid position of a row and deleting at
the same position restores the row's `chars`; splitting a row at `cx > 0`
via `editorInsertNewline` and merging back via `editorDeleteChar` at column
0 of the new row restores the original rows (hence `numrows` is unchanged)
and the cursor; both sequences leave `dirty = true` whatever it was before. -/
theorem edit_invariants :
    (∀ chars i c, i ≤ List.length chars →
        editorRowDeleteChar (editorRowInsertChar chars i c) i = chars)
      ∧ (∀ e c, e.cy < e.rows.length →
          e.cx ≤ (e.rows.getD e.cy []).length →
          editorDeleteChar (editorInsertChar e c) = { e with dirty := true })
      ∧ (∀ e, e.cy < e.rows.length → 0 < e.cx →
          e.cx ≤ (e.rows.getD e.cy []).length →
          editorDeleteChar (editorInsertNewline e) = { e with dirty := true }) := by
  refine ⟨rowInsert_then_delete, ?_, ?_⟩
  · intro e c hcy hcx
    rw [editorInsertChar_eq e c hcy hcx]
    have hlen : (e.rows.set e.cy ((e.rows.getD e.cy []).insertIdx e.cx c)).length
        = e.rows.length := List.length_set _ _ _
    have hgd : (e.rows.set e.cy ((e.rows.getD e.cy []).insertIdx e.cx c)).getD
        e.cy [] = (e.rows.getD e.cy []).insertIdx e.cx c :=
      getD_set_self _ _ _ _ (by omega)
    rw [editorDeleteChar_eq_inrow]
    · simp only [hgd, hlen, Nat.add_sub_cancel, List.eraseIdx_insertIdx,
        List.set_set]
      rw [set_getD_self _ _ _ hcy]
    · simpa [hlen] using hcy
    · simp
    · simp only [hgd, Nat.add_sub_cancel,
        List.length_insertIdx e.cx _ hcx]
      omega
  · intro e hcy hcx0 hcx
    rw [editorInsertNewline_eq e hcx0 hcy]
    have hlen1 : (e.rows.insertIdx (e.cy + 1) ((e.rows.getD e.cy []).drop e.cx)).length
        = e.rows.length + 1 := List.length_insertIdx _ _ (by omega)
    have hlen2 : ((e.rows.insertIdx (e.cy + 1) ((e.rows.getD e.cy []).drop e.cx)).set
        e.cy ((e.rows.getD e.cy []).take e.cx)).length = e.rows.length + 1 := by
      rw [List.length_set, hlen1]
    rw [editorDeleteChar_eq_merge]
    · have hgdprev : ((e.rows.insertIdx (e.cy + 1) ((e.rows.getD e.cy []).drop e.cx)).set
          e.cy ((e.rows.getD e.cy []).take e.cx)).getD e.cy []
          = (e.rows.getD e.cy []).take e.cx :=
        getD_set_self (e.rows.insertIdx (e.cy + 1) ((e.rows.getD e.cy []).drop e.cx))
          e.cy ((e.rows.getD e.cy []).take e.cx) [] (by rw [hlen1]; omega)
      have hgdcur : ((e.rows.insertIdx (e.cy + 1) ((e.rows.getD e.cy []).drop e.cx)).set
          e.cy ((e.rows.getD e.cy []).take e.cx)).getD (e.cy + 1) []
          = (e.rows.getD e.cy []).drop e.cx := by
        rw [getD_set_ne (e.rows.insertIdx (e.cy + 1) ((e.rows.getD e.cy []).drop e.cx))
          e.cy (e.cy + 1) ((e.rows.getD e.cy []).take e.cx) [] (by omega)]
        exact getD_insertIdx_self e.rows ((e.rows.getD e.cy []).drop e.cx)
          (e.cy + 1) (by omega) []
      have h5 : (e.rows.insertIdx (e.cy + 1) ((e.rows.getD e.cy []).drop e.cx)).getD
          e.cy [] = e.rows.getD e.cy [] :=
        getD_insertIdx_of_lt e.rows ((e.rows.getD e.cy []).drop e.cx)
          (e.cy + 1) e.cy (by omega) hcy []
      have hset : (e.rows.insertIdx (e.cy + 1) ((e.rows.getD e.cy []).drop e.cx)).set
          e.cy (e.rows.getD e.cy []) =
          e.rows.insertIdx (e.cy + 1) ((e.rows.getD e.cy []).drop e.cx) :=
        set_eq_self_of_getD (e.rows.insertIdx (e.cy + 1) ((e.rows.getD e.cy []).drop e.cx))
          e.cy (e.rows.getD e.cy []) [] (by rw [hlen1]; omega) h5
      simp only [Nat.add_sub_cancel, hgdprev, hgdcur, List.set_set,
        List.take_append_drop, hset, List.eraseIdx_insertIdx, List.length_take,
        Nat.min_eq_left hcx]
    · simp
    · show e.cy + 1 < ((e.rows.insertIdx (e.cy + 1)
          ((e.rows.getD e.cy []).drop e.cx)).set
          e.cy ((e.rows.getD e.cy []).take e.cx)).length
      rw [hlen2]
      omega
    · simp

theorem edit_invariants_witness :
    (1 ≤ List.length "ab".toList ∧
        editorRowDeleteChar (editorRowInsertChar "ab".toList 1 'x') 1 = "ab".toList)
      ∧ (editorDeleteChar (editorInsertChar
            { rows := ["abc".toList], cx := 1, cy := 0, rx := 0, rowoffset := 0,
              coloffset := 0, screenrows := 24, screencols := 80, dirty := false } 'x')
          = { rows := ["abc".toList], cx := 1, cy := 0, rx := 0, rowoffset := 0,
              coloffset := 0, screenrows := 24, screencols := 80, dirty := true })
      ∧ (editorDeleteChar (editorInsertNewline
            { rows := ["abc".toList], cx := 1, cy := 0, rx := 0, rowoffset := 0,
              coloffset := 0, screenrows := 24, screencols := 80, dirty := false })
          = { rows := ["abc".toList], cx := 1, cy := 0, rx := 0, rowoffset := 0,
              coloffset := 0, screenrows := 24, screencols := 80, dirty := true }) :=
  ⟨⟨by decide, edit_invariants.1 "ab".toList 1 'x' (by decide)⟩,
    edit_invariants.2.1 _ 'x' (by decide) (by decide),
    edit_invariants.2.2 _ (by decide) (by decide) (by decide)⟩

/-! ## Dirty-flag tracking across an editing session

`SaveState` pairs the editor state with a ghost copy of the row contents as
of the last load or successful save (the on-disk contents).  `EditOp` covers
the dispatcher's mutating commands plus cursor motion and Ctrl-S (whose
write may fail, in which case `editorSave` leaves `dirty` untouched). -/

structure SaveState where
  e : EState
  saved : List (List Char)
deriving Repr, DecidableEq

inductive EditOp where
  | insertChar (c : Char)
  | deleteChar
  | insertNewline
  | moveTo (cx cy : Nat)
  | save (ok : Bool)
deriving Repr, DecidableEq

/-- One dispatcher step.  `save true` is a successful `editorSave` (clears
`dirty`, the file now holds the serialized rows); `save false` is a failed
write (status message only, `dirty` kept). -/
def stepOp (s : SaveState) : EditOp → SaveState
  | .insertChar c => { s with e := editorInsertChar s.e c }
  | .deleteChar => { s with e := editorDeleteChar s.e }
  | .insertNewline => { s with e := editorInsertNewline s.e }
  | .moveTo cx cy => { s with e := { s.e with cx := cx, cy := cy } }
  | .save ok =>
      if ok then { e := { s.e with dirty := false }, saved := s.e.rows } else s

def runOps (s : SaveState) (ops : List EditOp) : SaveState :=
  ops.foldl stepOp s

/-- The `editorOpen` followed by editor start: rows are the stripped lines,
`dirty` is cleared, and the file holds exactly those rows. -/
def loadState (lines : List (List Char)) : SaveState :=
  { e := { rows := editorOpenRows lines, cx := 0, cy := 0, rx := 0,
           rowoffset := 0, coloffset := 0, screenrows := 24, screencols := 80,
           dirty := false },
    saved := editorOpenRows lines }

theorem editorDeleteChar_dirty_frame (e : EState)
    (h : (editorDeleteChar e).dirty = false) :
    (editorDeleteChar e).rows = e.rows ∧ e.dirty = false := by
  unfold editorDeleteChar editorDeleteRow at *
  by_cases h1 : e.cy = e.rows.length ∨ (e.cx = 0 ∧ e.cy = 0)
  · simp only [h1, if_true] at h ⊢
    exact ⟨trivial, h⟩
  · simp only [h1, if_false] at h ⊢
    by_cases h2 : 0 < e.cx
    · simp only [h2, if_true] at h ⊢
      by_cases h3 : e.cx - 1 ≥ (e.rows.getD e.cy []).length
      · simp only [h3, if_true] at h ⊢
        exact ⟨trivial, h⟩
      · simp only [h3, if_false] at h ⊢
        simp at h
    · simp only [h2, if_false] at h ⊢
      split at h <;> simp_all

theorem editorInsertNewline_dirty_frame (e : EState)
    (h : (editorInsertNewline e).dirty = false) :
    (editorInsertNewline e).rows = e.rows ∧ e.dirty = false := by
  unfold editorInsertNewline editorInsertRow at *
  by_cases h1 : e.cx = 0
  · simp only [h1, if_true] at h ⊢
    by_cases h2 : e.cy > e.rows.length
    · simp only [h2, if_true] at h ⊢
      exact ⟨trivial, h⟩
    · simp only [h2, if_false] at h ⊢
      simp at h
  · simp only [h1, if_false] at h ⊢
    by_cases h2 : e.cy + 1 > e.rows.length
    · simp only [h2, if_true] at h ⊢
      exact ⟨List.set_eq_of_length_le (by omega), h⟩
    · simp only [h2, if_false] at h ⊢
      simp at h

/-- The per-step invariant: a clean state's rows coincide with the last
saved contents. -/
theorem stepOp_dirty_invariant (s : SaveState) (op : EditOp)
    (inv : s.e.dirty = false → s.e.rows = s.saved)
    (h : (stepOp s op).e.dirty = false) :
    (stepOp s op).e.rows = (stepOp s op).saved := by
  cases op with
  | insertChar c =>
    exfalso
    have hd : (editorInsertChar s.e c).dirty = true := rfl
    simp only [stepOp] at h
    rw [hd] at h
    exact absurd h (by simp)
  | deleteChar =>
    unfold stepOp at *
    obtain ⟨h1, h2⟩ := editorDeleteChar_dirty_frame s.e h
    rw [h1]
    exact inv h2
  | insertNewline =>
    unfold stepOp at *
    obtain ⟨h1, h2⟩ := editorInsertNewline_dirty_frame s.e h
    rw [h1]
    exact inv h2
  | moveTo cx cy =>
    unfold stepOp at *
    exact inv h
  | save ok =>
    unfold stepOp at *
    cases ok with
    | true => simp
    | false => simpa using inv (by simpa using h)

theorem runOps_dirty_invariant (ops : List EditOp) (s : SaveState)
    (inv : s.e.dirty = false → s.e.rows = s.saved)
    (h : (runOps s ops).e.dirty = false) :
    (runOps s ops).e.rows = (runOps s ops).saved := by
  induction ops generalizing s with
  | nil => exact inv h
  | cons op ops ih =>
    unfold runOps at *
    simp only [List.foldl_cons] at h ⊢
    exact ih (stepOp s op) (fun hd => stepOp_dirty_invariant s op inv hd) h

/-- C8 counterexample: after inserting a character and deleting it again,
the document's rows equal the last-saved contents byte for byte, yet
`dirty` is `true` — refuting "dirty is true iff the document differs from
its state at the last save". -/
theorem dirty_iff_counterexample :
    (runOps (loadState ["ab".toList]) [.insertChar 'x', .deleteChar]).e.rows
        = (runOps (loadState ["ab".toList]) [.insertChar 'x', .deleteChar]).saved
      ∧ (runOps (loadState ["ab".toList]) [.insertChar 'x', .deleteChar]).e.dirty
        = true := by
  decide

/-- C8 (amended): `dirty` is conservative in one direction only — whenever
`dirty = false` after any sequence of editing operations from a freshly
loaded document, the rows coincide with the contents at the last load or
successful save; mutations set `dirty` even when they restore the saved
contents. -/
theorem dirty_flag_sound (lines : List (List Char)) (ops : List EditOp)
    (h : (runOps (loadState lines) ops).e.dirty = false) :
    (runOps (loadState lines) ops).e.rows
      = (runOps (loadState lines) ops).saved :=
  runOps_dirty_invariant ops (loadState lines) (fun _ => rfl) h

theorem dirty_flag_sound_witness :
    (runOps (loadState ["ab".toList]) [.insertChar 'x', .save true]).e.dirty = false
      ∧ (runOps (loadState ["ab".toList]) [.insertChar 'x', .save true]).e.rows
        = (runOps (loadState ["ab".toList]) [.insertChar 'x', .save true]).saved :=
  ⟨by decide,
    dirty_flag_sound ["ab".toList] [.insertChar 'x', .save true] (by decide)⟩

/-! ## Syntax highlighting

`enum editorHighlight` and the per-row state of `struct editorRow` that the
highlighter reads and writes: the derived `render`, the per-render-byte
`highlight` array and the `hl_open_comment` flag. -/

inductive HL where
  | normal
  | comment
  | mlcomment
  | keyword1
  | keyword2
  | string
  | number
  | hlmatch
deriving Repr, DecidableEq, Inhabited

structure ERow where
  chars : List Char
  render : List Char
  highlight : List HL
  hl_open_comment : Bool
deriving Repr, DecidableEq, Inhabited

/-- The `struct editorSyntax`: keyword list (secondary keywords carry a trailing
`|`), single-line and multi-line comment markers (empty list = `NULL`), and
the two highlight flags.  The file-matching patterns and filetype name play
no role in the highlighting itself. -/
structure HLProfile where
  keywords : List (List Char)
  scs : List Char
  mcs : List Char
  mce : List Char
  hlNumbers : Bool
  hlStrings : Bool
deriving Repr, DecidableEq

/-- The single `HLDB` entry for C. -/
def cProfile : HLProfile :=
  { keywords := ["switch", "if", "while", "for", "break", "continue", "return",
      "else", "struct", "union", "typedef", "static", "enum", "class", "case",
      "int|", "long|", "double|", "float|", "char|", "unsigned|", "signed|",
      "void|"].map String.toList,
    scs := "//".toList, mcs := "/*".toList, mce := "*/".toList,
    hlNumbers := true, hlStrings := true }

/-- The `memset(&hl[i], v, n)`. -/
def setRange (hl : List HL) (i n : Nat) (v : HL) : List HL :=
  match n with
  | 0 => hl
  | n + 1 => setRange (hl.set i v) (i + 1) n v

/-- The keyword scan of `editorUpdateSyntax`: first keyword in list order
whose core (without the `|` sentinel) is a prefix of the remaining render
and is followed by a separator (the NUL terminator counts at row end);
returns its core length and whether it is a secondary keyword. -/
def findKeyword : List (List Char) → List Char → Nat → Option (Nat × Bool)
  | [], _, _ => none
  | kw :: rest, render, i =>
    let kw2 := kw.getLast? == some '|'
    let core := if kw2 then kw.dropLast else kw
    if core.isPrefixOf (render.drop i)
        && is_separator (render.getD (i + core.length) '\x00')
    then some (core.length, kw2)
    else findKeyword rest render i

/-- The character loop of `editorUpdateSyntax`, one recursive call per
iteration of the C `for` loop.  Arguments after the fuel: current index
`i`, highlight array so far, `prev_sep`, `in_string` (the open quote
character, if any), `in_comment`.  Returns the final highlight array and
the `in_comment` value at loop exit.  The fuel `rsize + 1` is sufficient
whenever every keyword core has at least one character (every step then
advances `i`); the C code itself would not terminate otherwise. -/
def hlLoop (p : HLProfile) (render : List Char) :
    Nat → Nat → List HL → Bool → Option Char → Bool → List HL × Bool
  | 0, _, hl, _, _, in_comment => (hl, in_comment)
  | fuel + 1, i, hl, prev_sep, in_string, in_comment =>
    if h : i < render.length then
      let c := render.get ⟨i, h⟩
      let prev_hl := if i > 0 then hl.getD (i - 1) HL.normal else HL.normal
      if p.scs ≠ [] ∧ in_string = none ∧ ¬ in_comment
          ∧ p.scs.isPrefixOf (render.drop i) then
        (setRange hl i (render.length - i) HL.comment, in_comment)
      else if p.mcs ≠ [] ∧ p.mce ≠ [] ∧ in_string = none ∧ in_comment then
        if p.mce.isPrefixOf (render.drop i) then
          hlLoop p render fuel (i + p.mce.length)
            (setRange (hl.set i HL.mlcomment) i p.mce.length HL.mlcomment)
            true in_string false
        else
          hlLoop p render fuel (i + 1) (hl.set i HL.mlcomment)
            prev_sep in_string true
      else if p.mcs ≠ [] ∧ p.mce ≠ [] ∧ in_string = none
          ∧ p.mcs.isPrefixOf (render.drop i) then
        hlLoop p render fuel (i + p.mcs.length)
          (setRange hl i p.mcs.length HL.mlcomment) prev_sep in_string true
      else if p.hlStrings ∧ in_string.isSome then
        if c = '\\' ∧ i + 1 < render.length then
          hlLoop p render fuel (i + 2)
            ((hl.set i HL.string).set (i + 1) HL.string)
            prev_sep in_string in_comment
        else
          hlLoop p render fuel (i + 1) (hl.set i HL.string) true
            (if some c = in_string then none else in_string) in_comment
      else if p.hlStrings ∧ (c = '"' ∨ c = '\'') then
        hlLoop p render fuel (i + 1) (hl.set i HL.string) prev_sep
          (some c) in_comment
      else if p.hlNumbers ∧ ((isdigit_ c ∧ (prev_sep ∨ prev_hl = HL.number))
          ∨ (c = '.' ∧ prev_hl = HL.number)) then
        hlLoop p render fuel (i + 1) (hl.set i HL.number) false
          in_string in_comment
      else
        match prev_sep, findKeyword p.keywords render i with
        | true, some (klen, kw2) =>
          -- after a keyword match the C code nets `i += klen - 1; --i;`
          -- with the loop increment, so the next index is i + klen - 1
          hlLoop p render fuel (i + klen - 1)
            (setRange hl i klen (if kw2 then HL.keyword2 else HL.keyword1))
            false in_string in_comment
        | _, _ =>
          hlLoop p render fuel (i + 1) hl (is_separator c)
            in_string in_comment
    else (hl, in_comment)

/-- The `editorUpdateSyntax` on a single row, given the `in_comment` seed read
from the previous row's `hl_open_comment` (false for row 0): reset the
highlight array to all-normal, return early on a null profile (keeping the
open-comment flag), otherwise run the character loop and store its results. -/
def updateHighlightRow (p? : Option HLProfile) (seed : Bool) (row : ERow) :
    ERow :=
  let init := List.replicate row.render.length HL.normal
  match p? with
  | none => { row with highlight := init }
  | some p =>
    let res := hlLoop p row.render (row.render.length + 1) 0 init true none seed
    { row with highlight := res.1, hl_open_comment := res.2 }

/-- The seed `editorUpdateSyntax` reads for row `idx`:
`row->idx > 0 && E.row[row->idx - 1].hl_open_comment`. -/
def seedFor (rows : List ERow) (idx : Nat) : Bool :=
  decide (idx > 0) && (rows.getD (idx - 1) default).hl_open_comment

/-- The `editorUpdateSyntax` at the document level: re-derive row `idx`; if its
`hl_open_comment` changed and a next row exists, recursively re-derive the
next row (which now reads the new flag), cascading until a flag stops
changing or the document ends.  On a null profile the C code returns before
the changed-check, so no cascade happens. -/
def updateSyntaxCascade (p? : Option HLProfile) (rows : List ERow)
    (idx : Nat) : List ERow :=
  if h : idx < rows.length then
    let row := rows.get ⟨idx, h⟩
    match p? with
    | none => rows.set idx (updateHighlightRow none (seedFor rows idx) row)
    | some p =>
      let row' := updateHighlightRow (some p) (seedFor rows idx) row
      let changed := row.hl_open_comment ≠ row'.hl_open_comment
      let rows' := rows.set idx row'
      if changed ∧ idx + 1 < rows.length then
        updateSyntaxCascade p? rows' (idx + 1)
      else rows'
  else rows
termination_by rows.length - idx
decreasing_by simp only [List.length_set]; omega

/-- A freshly inserted row before `editorUpdateRow` runs
(`editorInsertRow`: empty highlight, open-comment flag cleared). -/
def mkERow (chars : List Char) : ERow :=
  { chars := chars, render := renderChars chars, highlight := [],
    hl_open_comment := false }

/-- The `editorOpen` at the row level: rows are appended one at a time, and each
new row is highlighted with the seed taken from the row before it (at that
moment `idx + 1 < numrows` is false, so no cascade runs). -/
def loadERows (p? : Option HLProfile) (lines : List (List Char)) :
    List ERow :=
  lines.foldl
    (fun rows line =>
      rows ++ [updateHighlightRow p? (seedFor (rows ++ [mkERow (stripCRLF line)])
        rows.length) (mkERow (stripCRLF line))])
    []

/-- The document of the C1 example, loaded under the C profile. -/
def commentDoc : List ERow :=
  loadERows (some cProfile)
    ["/* start".toList, "middle".toList, "end */ code".toList]

/-- C1: for the document `["/* start", "middle", "end */ code"]` under the
C profile, rows 0 and 1 are fully classified as (multi-line) comment with
the open-comment flag set, and row 2 is comment up to and including `*/`
and normal afterward with the flag cleared; and in general, re-deriving row
`idx` leaves the rest of the document alone when its open-comment flag is
unchanged, re-derives the next row (continuing the cascade) when the flag
changed and a next row exists, and stops at the document end otherwise. -/
theorem comment_propagation :
    (commentDoc.map ERow.highlight
        = [List.replicate 8 HL.mlcomment, List.replicate 6 HL.mlcomment,
           List.replicate 6 HL.mlcomment ++ List.replicate 5 HL.normal]
      ∧ commentDoc.map ERow.hl_open_comment = [true, true, false])
    ∧ (∀ p rows idx (h : idx < rows.length),
        ((updateHighlightRow (some p) (seedFor rows idx)
              (rows.get ⟨idx, h⟩)).hl_open_comment
            = (rows.get ⟨idx, h⟩).hl_open_comment →
          updateSyntaxCascade (some p) rows idx
            = rows.set idx (updateHighlightRow (some p) (seedFor rows idx)
                (rows.get ⟨idx, h⟩)))
        ∧ ((updateHighlightRow (some p) (seedFor rows idx)
              (rows.get ⟨idx, h⟩)).hl_open_comment
            ≠ (rows.get ⟨idx, h⟩).hl_open_comment →
          idx + 1 < rows.length →
          updateSyntaxCascade (some p) rows idx
            = updateSyntaxCascade (some p)
                (rows.set idx (updateHighlightRow (some p) (seedFor rows idx)
                  (rows.get ⟨idx, h⟩))) (idx + 1))
        ∧ ((updateHighlightRow (some p) (seedFor rows idx)
              (rows.get ⟨idx, h⟩)).hl_open_comment
            ≠ (rows.get ⟨idx, h⟩).hl_open_comment →
          ¬ idx + 1 < rows.length →
          updateSyntaxCascade (some p) rows idx
            = rows.set idx (updateHighlightRow (some p) (seedFor rows idx)
                (rows.get ⟨idx, h⟩)))) := by
  refine ⟨⟨by decide, by decide⟩, ?_⟩
  intro p rows idx h
  refine ⟨?_, ?_, ?_⟩
  · intro heq
    unfold updateSyntaxCascade
    simp only [dif_pos h]
    rw [if_neg (fun hx => hx.1 heq.symm)]
  · intro hne hlt
    conv_lhs => rw [updateSyntaxCascade]
    simp only [dif_pos h]
    rw [if_pos ⟨fun hx => hne hx.symm, hlt⟩]
  · intro hne hnlt
    unfold updateSyntaxCascade
    simp only [dif_pos h]
    rw [if_neg (fun hx => hnlt hx.2)]

theorem comment_propagation_witness :
    0 < commentDoc.length
      ∧ updateSyntaxCascade (some cProfile) commentDoc 0
        = commentDoc.set 0 (updateHighlightRow (some cProfile)
            (seedFor commentDoc 0) (commentDoc.get ⟨0, by decide⟩)) :=
  ⟨by decide,
    ((comment_propagation.2 cProfile commentDoc 0 (by decide)).1 (by decide))⟩

/-! ## Incremental search (`editorFindCallback` / `editorFind`)

Key codes are the C `int` values: printable bytes are themselves,
`BACKSPACE = 127`, and the `editorKey` enum is `ARROW_LEFT = 1000`,
`ARROW_RIGHT = 1001`, `ARROW_UP = 1002`, `ARROW_DOWN = 1003`, `DEL = 1004`. -/

/-- The `strstr(hay, needle)` as the offset of the first occurrence. -/
def strstrIdxAux (needle : List Char) : List Char → Nat → Option Nat
  | hay, i =>
    if needle.isPrefixOf hay then some i
    else
      match hay with
      | [] => none
      | _ :: t => strstrIdxAux needle t (i + 1)

def strstrIdx (hay needle : List Char) : Option Nat :=
  strstrIdxAux needle hay 0

/-- The index wrap of the scan loop: only the exact values `-1` and
`numrows` are wrapped. -/
def wrapIdx (n : Nat) (cur : Int) : Int :=
  if cur = -1 then (n : Int) - 1 else if cur = (n : Int) then 0 else cur

/-- The scan loop of `editorFindCallback`: at most `numrows` steps, each
advancing `current` by `direction` and wrapping, stopping at the first row
whose render contains the query; returns the row and the match offset. -/
def findScanAux (rows : List ERow) (query : List Char) (dir : Int) :
    Nat → Int → Option (Int × Nat)
  | 0, _ => none
  | fuel + 1, cur =>
    let cur' := wrapIdx rows.length (cur + dir)
    match strstrIdx (rows.getD cur'.toNat default).render query with
    | some off => some (cur', off)
    | none => findScanAux rows query dir fuel cur'

def findScan (rows : List ERow) (query : List Char) (last_match dir : Int) :
    Option (Int × Nat) :=
  findScanAux rows query dir rows.length last_match

/-- The row at which a search lands (first component of the scan). -/
def findRow (rows : List ERow) (query : List Char) (last_match dir : Int) :
    Option Int :=
  (findScan rows query last_match dir).map Prod.fst

/-- The sequence of `current` values the scan loop visits. -/
def scanSeq (n : Nat) (dir : Int) : Nat → Int → List Int
  | 0, _ => []
  | fuel + 1, cur =>
    let cur' := wrapIdx n (cur + dir)
    cur' :: scanSeq n dir fuel cur'

theorem strstrIdxAux_isSome (needle : List Char) :
    ∀ (hay : List Char) (i : Nat),
      (strstrIdxAux needle hay i).isSome = true ↔ needle <:+: hay := by
  intro hay
  induction hay with
  | nil =>
    intro i
    unfold strstrIdxAux
    by_cases hp : needle.isPrefixOf [] = true
    · simp only [hp, if_true]
      simp [List.infix_nil, List.isPrefixOf_iff_prefix.mp hp,
        List.prefix_nil.mp (List.isPrefixOf_iff_prefix.mp hp)]
    · simp only [hp]
      simp only [Bool.false_eq_true, if_false, Option.isSome_none,
        List.infix_nil]
      constructor
      · intro hx; exact absurd hx (by simp)
      · intro hx
        subst hx
        exact absurd (by simp [List.isPrefixOf]) hp
  | cons c t ih =>
    intro i
    unfold strstrIdxAux
    by_cases hp : needle.isPrefixOf (c :: t) = true
    · simp only [hp, if_true]
      simp only [Option.isSome_some, true_iff]
      exact (List.isPrefixOf_iff_prefix.mp hp).isInfix
    · simp only [hp]
      simp only [Bool.false_eq_true, if_false]
      rw [ih (i + 1), List.infix_cons_iff]
      constructor
      · exact Or.inr
      · intro hx
        rcases hx with hx | hx
        · exact absurd (List.isPrefixOf_iff_prefix.mpr hx) hp
        · exact hx

theorem strstrIdx_isSome (hay needle : List Char) :
    (strstrIdx hay needle).isSome = true ↔ needle <:+: hay :=
  strstrIdxAux_isSome needle hay 0

theorem find?_cons_pos' {α : Type} (p : α → Bool) (a : α) (l : List α)
    (h : p a = true) : List.find? p (a :: l) = some a :=
  List.find?_cons_of_pos l h

theorem find?_cons_neg' {α : Type} (p : α → Bool) (a : α) (l : List α)
    (h : p a = false) : List.find? p (a :: l) = List.find? p l :=
  List.find?_cons_of_neg l (by simp [h])

theorem findScanAux_find? (rows : List ERow) (q : List Char) (dir : Int)
    (fuel : Nat) :
    ∀ cur, (findScanAux rows q dir fuel cur).map Prod.fst
      = (scanSeq rows.length dir fuel cur).find?
          (fun r => (strstrIdx (rows.getD r.toNat default).render q).isSome) := by
  induction fuel with
  | zero => intro cur; rfl
  | succ fuel ih =>
    intro cur
    unfold findScanAux scanSeq
    dsimp only
    cases hs : strstrIdx
        (rows.getD (wrapIdx rows.length (cur + dir)).toNat default).render q with
    | some off =>
      rw [find?_cons_pos'
        (fun (r : Int) => (strstrIdx (rows.getD r.toNat default).render q).isSome)]
      · rfl
      · show (strstrIdx (rows.getD
            (wrapIdx rows.length (cur + dir)).toNat default).render q).isSome = true
        rw [hs]
        rfl
    | none =>
      rw [find?_cons_neg'
        (fun (r : Int) => (strstrIdx (rows.getD r.toNat default).render q).isSome)]
      · exact ih (wrapIdx rows.length (cur + dir))
      · show (strstrIdx (rows.getD
            (wrapIdx rows.length (cur + dir)).toNat default).render q).isSome = false
        rw [hs]
        rfl

/-- The three-row document of the C6/C7 examples (no active profile, so the
render equals the chars and every highlight is normal). -/
def rows3 : List ERow :=
  loadERows none ["foo".toList, "bar".toList, "foo".toList]

/-- C6: on rows `["foo", "bar", "foo"]` with query `"foo"`, a search with no
prior match (`last_match = -1`) lands on row 0, the next forward search on
row 2, and the next wraps back to row 0; in general the scan visits exactly
the wrapped index sequence starting one step past the last match and stops
at the first visited row whose render contains the query (`strstr` finds an
occurrence iff the query is an infix of the render). -/
theorem search_wraparound :
    (findRow rows3 "foo".toList (-1) 1 = some 0
        ∧ findRow rows3 "foo".toList 0 1 = some 2
        ∧ findRow rows3 "foo".toList 2 1 = some 0)
      ∧ (∀ rows q last dir, findRow rows q last dir
          = (scanSeq rows.length dir rows.length last).find?
              (fun (r : Int) =>
                (strstrIdx (rows.getD r.toNat default).render q).isSome))
      ∧ (∀ hay q, (strstrIdx hay q).isSome = true ↔ q <:+: hay) := by
  refine ⟨⟨by decide, by decide, by decide⟩, ?_, strstrIdx_isSome⟩
  intro rows q last dir
  exact findScanAux_find? rows q dir rows.length last

/-- The editor fields the search session reads and writes, together with
`editorFindCallback`'s static bookkeeping (`last_match`, `direction`, saved
highlight snapshot).  Both statics are reset by the callback on Enter and
Escape, so at session start they always hold `-1` and `1`. -/
structure FindEnv where
  rows : List ERow
  cx : Nat
  cy : Nat
  rowoffset : Nat
  coloffset : Nat
  last_match : Int
  direction : Int
  saved_line : Option (Nat × List HL)
deriving Repr, DecidableEq

/-- The `editorFindCallback`: restore any saved highlight snapshot; on Enter or
Escape reset the statics and return; otherwise set the direction (arrows)
or re-anchor (any other key), force forward from scratch, scan, and on a
match move the cursor there, push `rowoffset` past the end (forcing a
scroll), snapshot the matched row's highlight and overlay the match span. -/
def editorFindCallback (query : List Char) (key : Nat) (env : FindEnv) :
    FindEnv :=
  let env :=
    match env.saved_line with
    | some (line, hl) =>
      let row := env.rows.getD line default
      { env with rows := env.rows.set line { row with highlight := hl },
                 saved_line := none }
    | none => env
  if key = 13 ∨ key = 27 then
    { env with last_match := -1, direction := 1 }
  else
    let env :=
      if key = 1001 ∨ key = 1003 then { env with direction := 1 }
      else if key = 1000 ∨ key = 1002 then { env with direction := -1 }
      else { env with last_match := -1, direction := 1 }
    let env := if env.last_match = -1 then { env with direction := 1 } else env
    match findScan env.rows query env.last_match env.direction with
    | none => env
    | some (cur, off) =>
      let row := env.rows.getD cur.toNat default
      { env with
        last_match := cur,
        cy := cur.toNat,
        cx := editorRowRxToCx row.chars off,
        rowoffset := env.rows.length,
        saved_line := some (cur.toNat, row.highlight),
        rows := env.rows.set cur.toNat
          { row with
            highlight := setRange row.highlight off query.length HL.hlmatch } }

/-- The `!iscntrl(c) && c < 128`: the bytes `editorPrompt` appends. -/
def isAppendable (c : Nat) : Bool :=
  !iscntrl_ c && c < 128

/-- The append path of `editorPrompt`: when the buffer is full
(`buflen == bufsize - 1`) the capacity grows by `bufsize += 2`, then the
byte is appended (and the NUL terminator moved). -/
def promptAppend (buf : List Char) (bufsize : Nat) (c : Nat) :
    List Char × Nat :=
  let bufsize' := if buf.length = bufsize - 1 then bufsize + 2 else bufsize
  (buf ++ [Char.ofNat c], bufsize')

/-- One iteration of `editorPrompt`'s loop, restricted to its effect on the
input buffer and its capacity: Del/Backspace trim the last byte, Enter and
Escape leave the buffer alone (they end or continue the session), any other
printable non-control byte under 128 is appended. -/
def promptStepBuf (s : List Char × Nat) (c : Nat) : List Char × Nat :=
  if c = 1004 ∨ c = 127 then
    if s.1 ≠ [] then (s.1.dropLast, s.2) else s
  else if c = 27 ∨ c = 13 then s
  else if isAppendable c then promptAppend s.1 s.2 c
  else s

/-- The `editorPrompt` with the search callback: processes one key per
iteration, threading the buffer (initially 128 bytes of capacity) and the
editor/search state through the callback, which runs once per keystroke on
the updated buffer.  Returns `none` if the key list ends with the session
still open, otherwise the session result (`none` = cancelled by Escape,
`some buf` = confirmed by Enter on a non-empty buffer) and the final state. -/
def promptLoop (keys : List Nat) (buf : List Char) (bufsize : Nat)
    (env : FindEnv) : Option (Option (List Char) × FindEnv) :=
  match keys with
  | [] => none
  | c :: rest =>
    if c = 1004 ∨ c = 127 then
      let buf' := if buf ≠ [] then buf.dropLast else buf
      promptLoop rest buf' bufsize (editorFindCallback buf' c env)
    else if c = 27 then
      some (none, editorFindCallback buf c env)
    else if c = 13 then
      if buf ≠ [] then some (some buf, editorFindCallback buf c env)
      else promptLoop rest buf bufsize (editorFindCallback buf c env)
    else if isAppendable c then
      let r := promptAppend buf bufsize c
      promptLoop rest r.1 r.2 (editorFindCallback r.1 c env)
    else
      promptLoop rest buf bufsize (editorFindCallback buf c env)

/-- The `editorFind`: save the cursor and scroll offsets, run the search prompt,
and restore all four saved fields if the prompt was cancelled; on confirm
keep the state the session produced. -/
def editorFind (env : FindEnv) (keys : List Nat) : Option FindEnv :=
  match promptLoop keys [] 128 env with
  | none => none
  | some (none, env') =>
    some { env' with cx := env.cx, cy := env.cy,
                     coloffset := env.coloffset, rowoffset := env.rowoffset }
  | some (some _, env') => some env'

/-- C7: whatever keystrokes a search session issues and whatever matches it
visits, cancelling with Escape restores `cx`, `cy`, `rowoffset` and
`coloffset` exactly to their values at search entry, while confirming with
Enter keeps the session's final position. -/
theorem find_cancel_restores :
    (∀ env keys env1, promptLoop keys [] 128 env = some (none, env1) →
        editorFind env keys
          = some { env1 with cx := env.cx, cy := env.cy,
                             coloffset := env.coloffset,
                             rowoffset := env.rowoffset })
      ∧ (∀ env keys q env1, promptLoop keys [] 128 env = some (some q, env1) →
          editorFind env keys = some env1) := by
  constructor
  · intro env keys env1 h
    unfold editorFind
    rw [h]
  · intro env keys q env1 h
    unfold editorFind
    rw [h]

/-- The search-session start state of the C7 example: cursor at
`(cx = 3, cy = 1)` over the three-row document. -/
def findEnvEx : FindEnv :=
  { rows := rows3, cx := 3, cy := 1, rowoffset := 0, coloffset := 0,
    last_match := -1, direction := 1, saved_line := none }

/-- The state after typing `'f'` in the session: the cursor has moved to
the match on row 0 and the statics were reset by the Escape that follows. -/
def findEnvMid : FindEnv :=
  { rows := rows3, cx := 0, cy := 0, rowoffset := 3, coloffset := 0,
    last_match := -1, direction := 1, saved_line := none }

theorem find_cancel_restores_witness :
    promptLoop [102, 27] [] 128 findEnvEx = some (none, findEnvMid)
      ∧ editorFind findEnvEx [102, 27]
        = some { findEnvMid with cx := 3, cy := 1, coloffset := 0,
                                 rowoffset := 0 } :=
  ⟨by decide,
    find_cancel_restores.1 findEnvEx [102, 27] findEnvMid (by decide)⟩

theorem promptStepBuf_appendable (buf : List Char) (bufsize : Nat) (c : Nat)
    (hc : isAppendable c = true) :
    promptStepBuf (buf, bufsize) c = promptAppend buf bufsize c := by
  unfold isAppendable iscntrl_ at hc
  simp only [Bool.and_eq_true, Bool.not_eq_true', Bool.or_eq_false_iff,
    decide_eq_false_iff_not, decide_eq_true_eq] at hc
  unfold promptStepBuf
  have h1 : ¬ (c = 1004 ∨ c = 127) := by omega
  have h2 : ¬ (c = 27 ∨ c = 13) := by omega
  have h3 : isAppendable c = true := by
    unfold isAppendable iscntrl_
    simp only [Bool.and_eq_true, Bool.not_eq_true', Bool.or_eq_false_iff,
      decide_eq_false_iff_not, decide_eq_true_eq]
    omega
  simp only [h1, if_false, h2, h3, if_true]

theorem promptRun_aux (keys : List Nat) :
    ∀ buf bufsize, buf.length < bufsize →
      (∀ c ∈ keys, isAppendable c = true) →
      (keys.foldl promptStepBuf (buf, bufsize)).1
          = buf ++ keys.map (fun c => Char.ofNat c)
        ∧ (keys.foldl promptStepBuf (buf, bufsize)).1.length
          < (keys.foldl promptStepBuf (buf, bufsize)).2 := by
  induction keys with
  | nil =>
    intro buf bufsize hinv hk
    simpa using hinv
  | cons c keys ih =>
    intro buf bufsize hinv hk
    have hc : isAppendable c = true := hk c (by simp)
    rw [List.foldl_cons, promptStepBuf_appendable buf bufsize c hc]
    unfold promptAppend
    have hinv' : (buf ++ [Char.ofNat c]).length
        < (if buf.length = bufsize - 1 then bufsize + 2 else bufsize) := by
      by_cases hfull : buf.length = bufsize - 1
      · simp only [hfull, if_true, List.length_append, List.length_singleton]
        omega
      · simp only [hfull, if_false, List.length_append]
        simp only [List.length_singleton]
        omega
    obtain ⟨ha, hb⟩ := ih (buf ++ [Char.ofNat c])
      (if buf.length = bufsize - 1 then bufsize + 2 else bufsize) hinv'
      (fun x hx => hk x (by simp [hx]))
    refine ⟨?_, hb⟩
    rw [ha]
    simp

set_option maxRecDepth 10000 in
/-- C9 counterexample: the prompt buffer's capacity after its first growth
is 130 and after its second 132 — an additive increment of 2 bytes each
time, not multiplication by a constant factor (the successive capacities
128, 130, 132 are not in any constant ratio, in particular not doubling). -/
theorem prompt_geometric_counterexample :
    ((List.replicate 129 65).foldl promptStepBuf ([], 128)).2 = 130
      ∧ ((List.replicate 131 65).foldl promptStepBuf ([], 128)).2 = 132
      ∧ ¬ (130 * 130 = 128 * 132) ∧ ¬ (130 = 128 * 2) :=
  ⟨by decide, by decide, by decide, by decide⟩

/-- C9 (amended): every printable, non-control byte under 128 is appended
to the prompt buffer, and when the buffer is full its capacity grows by a
fixed increment of 2 bytes so that appending always succeeds (the content
plus its NUL terminator fit the capacity); for every sequence of such
keystrokes the buffer afterward holds exactly those bytes in order. -/
theorem prompt_append_behavior (keys : List Nat)
    (hk : ∀ c ∈ keys, isAppendable c = true) :
    (keys.foldl promptStepBuf ([], 128)).1
        = keys.map (fun c => Char.ofNat c)
      ∧ (keys.foldl promptStepBuf ([], 128)).1.length
        < (keys.foldl promptStepBuf ([], 128)).2
      ∧ (∀ buf bufsize c, isAppendable c = true → buf.length = bufsize - 1 →
          (promptStepBuf (buf, bufsize) c).2 = bufsize + 2)
      ∧ (∀ buf bufsize c, isAppendable c = true → buf.length ≠ bufsize - 1 →
          (promptStepBuf (buf, bufsize) c).2 = bufsize) := by
  obtain ⟨ha, hb⟩ := promptRun_aux keys [] 128 (by simp) hk
  refine ⟨by simpa using ha, hb, ?_, ?_⟩
  · intro buf bufsize c hc hfull
    rw [promptStepBuf_appendable buf bufsize c hc]
    unfold promptAppend
    simp [hfull]
  · intro buf bufsize c hc hfull
    rw [promptStepBuf_appendable buf bufsize c hc]
    unfold promptAppend
    simp [hfull]

theorem prompt_append_behavior_witness :
    (∀ c ∈ [104, 105], isAppendable c = true)
      ∧ ([104, 105].foldl promptStepBuf ([], 128)).1 = ['h', 'i'] :=
  ⟨by decide, by simpa using (prompt_append_behavior [104, 105] (by decide)).1⟩
